import Mathlib

/-!
Shallow embedding of the bitmap codec in `src/bitmap.c` / `src/bitmap.h`
(m-pilia/bitmap-manipulation), with theorems settling the specification
claims about row framing, the per-row pixel codec, the pixel filters
(histogram, equalization, RGB/YCbCr conversion) and the steganographic
channel.

Machine integers are modelled as `Nat` (resp. `Int`), with `% 2 ^ w`
inserted exactly where C unsigned arithmetic wraps.  The C `double` /
`float` arithmetic of the colour-space and equalization filters uses
decimal constants on byte-sized operands; it is modelled by exact
rational arithmetic, realized over `Int` with explicit decimal
denominators and C-style truncation (`Int.tdiv`).  At every concrete
input evaluated in a theorem below the floating-point result is within
1e-9 of the exact value while the exact value is at distance at least
0.2 from the nearest integer, so the truncated results coincide.
-/

namespace Bmp

/-- Pixel (bitmap.h lines 120-126): packed 4-byte struct `(b, g, r, i)`,
each field one byte wide in C (`uint8_t`); modelled as `ℕ` with the
byte bound carried as a well-formedness hypothesis where needed. -/
structure Pixel where
  b : ℕ
  g : ℕ
  r : ℕ
  i : ℕ
  deriving DecidableEq

/-- Palette color (bitmap.h lines 109-115): 4 bytes `(b, g, r, a)`. -/
structure Color where
  b : ℕ
  g : ℕ
  r : ℕ
  a : ℕ
  deriving DecidableEq

/-- CIE XYZ color (bitmap.h lines 44-49). -/
structure CieXyz where
  x : ℕ
  y : ℕ
  z : ℕ
  deriving DecidableEq

/-- CIE XYZ triple (bitmap.h lines 54-59). -/
structure CieXyzTriple where
  r : CieXyz
  g : CieXyz
  b : CieXyz
  deriving DecidableEq

/-- Bitmap v5 header (bitmap.h lines 76-102); all integer fields are
unsigned C integers, modelled as `ℕ`. -/
structure Bmp_header where
  header_size : ℕ
  width : ℕ
  height : ℕ
  color_planes : ℕ
  bit_per_pixel : ℕ
  compression_type : ℕ
  image_size : ℕ
  h_resolution : ℕ
  v_resolution : ℕ
  color_no : ℕ
  important_color_no : ℕ
  red_mask : ℕ
  green_mask : ℕ
  blue_mask : ℕ
  alpha_mask : ℕ
  cs_type : ℕ
  endpoints : CieXyzTriple
  gamma_red : ℕ
  gamma_green : ℕ
  gamma_blue : ℕ
  intent : ℕ
  profile_data : ℕ
  profile_size : ℕ
  reserved : ℕ
  deriving DecidableEq

/-- Image (bitmap.h lines 131-136): header, jagged pixel matrix, palette. -/
structure Image where
  bmp_header : Bmp_header
  pixel_data : List (List Pixel)
  palette : List Color
  deriving DecidableEq

/-- Loop body of `tr_zeros` (bitmap.c lines 83-97) with explicit fuel;
the C loop `while (!(val & 1)) { ++res; val >>= 1; }` runs at most
`log2 val < val` times for `val ≠ 0`, so fuel `val` suffices. -/
def trZerosGo : ℕ → ℕ → ℕ
  | 0, _ => 0
  | fuel + 1, v => if v % 2 = 1 then 0 else 1 + trZerosGo fuel (v / 2)

/-- Count trailing binary zeros, `tr_zeros` (bitmap.c lines 83-97);
`tr_zeros 0 = 0` by the early return. -/
def tr_zeros (v : ℕ) : ℕ := if v = 0 then 0 else trZerosGo v v

/-- READ_MASK macro (bitmap.c line 43): `((val & mask) >> tr_zeros mask)`. -/
def readMask (val mask : ℕ) : ℕ := (val &&& mask) >>> tr_zeros mask

/-- Row byte length, the shared subexpression `(width * bpp + 7) / 8` of
bitmap.c lines 134, 145, 361 and 498 (the `+ 7` rounds the division up). -/
def rowByteLength (width bpp : ℕ) : ℕ := (width * bpp + 7) / 8

/-- Row padding as computed in `new_image` (bitmap.c line 134):
`(4 - (bpp * width + 7) / 8 % 4) % 4` (C precedence: `/` and `%` bind
alike and associate left). -/
def newImageRowPad (width bpp : ℕ) : ℕ := (4 - (bpp * width + 7) / 8 % 4) % 4

/-- Row padding as computed in `open_bitmap` (bitmap.c line 361). -/
def openBitmapRowPad (width bpp : ℕ) : ℕ := (4 - ((width * bpp + 7) / 8) % 4) % 4

/-- Row padding as computed in `save_bitmap` (bitmap.c line 498). -/
def saveBitmapRowPad (width bpp : ℕ) : ℕ := (4 - ((width * bpp + 7) / 8) % 4) % 4

/-- C2: for every width ≥ 1 and supported depth, the row framing used by
`new_image`, `open_bitmap` and `save_bitmap` agrees, computes
`row_byte_length = ⌈width·depth/8⌉` and
`padding = (4 - row_byte_length mod 4) mod 4`; in particular width 3 at
depth 24 gives row length 9 with padding 3, and width 5 at depth 1 gives
row length 1 with padding 3. -/
theorem rowFraming_spec :
    (∀ width bpp : ℕ, 1 ≤ width → bpp ∈ ([1, 4, 8, 16, 24, 32] : List ℕ) →
      newImageRowPad width bpp = openBitmapRowPad width bpp ∧
      openBitmapRowPad width bpp = saveBitmapRowPad width bpp ∧
      ((rowByteLength width bpp : ℤ) = ⌈(((width * bpp : ℕ) : ℚ)) / 8⌉) ∧
      saveBitmapRowPad width bpp = (4 - rowByteLength width bpp % 4) % 4) ∧
    rowByteLength 3 24 = 9 ∧ saveBitmapRowPad 3 24 = 3 ∧
    rowByteLength 5 1 = 1 ∧ saveBitmapRowPad 5 1 = 3 := by
  refine ⟨?_, by decide, by decide, by decide, by decide⟩
  intro width bpp _ _
  refine ⟨by simp [newImageRowPad, openBitmapRowPad, Nat.mul_comm], rfl, ?_, rfl⟩
  have h8 : (0 : ℚ) < 8 := by norm_num
  have hnat1 : width * bpp ≤ 8 * rowByteLength width bpp := by
    unfold rowByteLength; omega
  have hnat2 : 8 * rowByteLength width bpp ≤ width * bpp + 7 := by
    unfold rowByteLength; omega
  have hq1 : ((width * bpp : ℕ) : ℚ) ≤ 8 * (rowByteLength width bpp : ℚ) := by
    exact_mod_cast hnat1
  have hq2 : 8 * ((rowByteLength width bpp : ℕ) : ℚ) ≤ ((width * bpp : ℕ) : ℚ) + 7 := by
    exact_mod_cast hnat2
  push_cast at hq1 hq2
  rw [eq_comm, Int.ceil_eq_iff]
  refine ⟨?_, ?_⟩
  · rw [lt_div_iff₀ h8]
    push_cast
    linarith [hq2]
  · rw [div_le_iff₀ h8]
    push_cast
    linarith [hq1]

/-- Witness for C2 at width 3, depth 24. -/
theorem rowFraming_spec_witness :
    ((1 : ℕ) ≤ 3 ∧ (24 : ℕ) ∈ ([1, 4, 8, 16, 24, 32] : List ℕ)) ∧
    (newImageRowPad 3 24 = openBitmapRowPad 3 24 ∧
      openBitmapRowPad 3 24 = saveBitmapRowPad 3 24 ∧
      ((rowByteLength 3 24 : ℤ) = ⌈(((3 * 24 : ℕ) : ℚ)) / 8⌉) ∧
      saveBitmapRowPad 3 24 = (4 - rowByteLength 3 24 % 4) % 4) :=
  ⟨⟨by decide, by decide⟩, rowFraming_spec.1 3 24 (by decide) (by decide)⟩

/-- Channel read: bitmap.c casts a `Pixel*` to `uint8_t*` and indexes it
(lines 823, 867, 998, ...); index 0/1/2/3 selects the b/g/r/i byte of
the packed struct.  An index above 3 is an out-of-bounds read in C (the
callers validate the channel first); modelled as 0. -/
def getChan (p : Pixel) (ch : ℕ) : ℕ :=
  match ch with
  | 0 => p.b
  | 1 => p.g
  | 2 => p.r
  | 3 => p.i
  | _ => 0

/-- Channel write through the same byte-array view of a `Pixel`. -/
def setChan (p : Pixel) (ch : ℕ) (v : ℕ) : Pixel :=
  match ch with
  | 0 => { p with b := v }
  | 1 => { p with g := v }
  | 2 => { p with r := v }
  | 3 => { p with i := v }
  | _ => p

/-- All-zero pixel, the value `calloc` gives a grid cell in `new_image`. -/
def pixel0 : Pixel := ⟨0, 0, 0, 0⟩

/-- Access `image.pixel_data[i][j]`; out-of-range indices are
out-of-bounds reads in C and are modelled by the defaults. -/
def getPx (g : List (List Pixel)) (i j : ℕ) : Pixel := (g.getD i []).getD j pixel0

/-- C assignment of an integer-valued expression to a `uint8_t` lvalue.
In C a value outside [0, 255] makes the conversion wrap for integer
sources and is undefined for floating sources; both are modelled as
wrap mod 256 (every in-claim evaluation stays in range). -/
def toByteZ (x : ℤ) : ℕ := (x % 256).toNat

/-- Per-pixel body of `rgb2ycbcr` (bitmap.c lines 893-906).  The C code
computes in `double` and truncates on assignment; the decimal constants
0.299/0.587/0.114/0.713/0.564 are modelled exactly with denominator
1000 and `Int.tdiv` (truncation towards zero, as C's conversion).
Note the code puts `128 + 0.713*(B - Y)` in the green slot and
`128 + 0.564*(R - Y)` in the red slot — the opposite pairing of its own
doc comment (lines 876-883). -/
def rgb2ycbcrPixel (p : Pixel) : Pixel :=
  let y : ℕ := (299 * p.r + 587 * p.g + 114 * p.b) / 1000 % 256
  { b := y
    g := toByteZ (Int.tdiv (128000 + 713 * ((p.b : ℤ) - (y : ℤ))) 1000)
    r := toByteZ (Int.tdiv (128000 + 564 * ((p.r : ℤ) - (y : ℤ))) 1000)
    i := p.i }

/-- Per-pixel body of `ycbcr2rgb` (bitmap.c lines 929-947), with the
decimal constants 1.402/0.34414/0.71414/1.772 modelled exactly over
denominators 1000 and 100000. -/
def ycbcr2rgbPixel (p : Pixel) : Pixel :=
  { b := toByteZ (Int.tdiv (1000 * (p.b : ℤ) + 1772 * ((p.g : ℤ) - 128)) 1000)
    g := toByteZ (Int.tdiv (100000 * (p.b : ℤ) - 34414 * ((p.g : ℤ) - 128)
      - 71414 * ((p.r : ℤ) - 128)) 100000)
    r := toByteZ (Int.tdiv (1000 * (p.b : ℤ) + 1402 * ((p.r : ℤ) - 128)) 1000)
    i := p.i }

/-- `rgb2ycbcr` (bitmap.c lines 885-910): transforms every pixel of the
`height × width` grid in place and returns 0.  The C loops run over
`i < height`, `j < width`, which on a well-formed image is every grid
cell; modelled as a map over the grid. -/
def rgb2ycbcr (im : Image) : Image × ℕ :=
  ({ im with pixel_data := im.pixel_data.map (fun row => row.map rgb2ycbcrPixel) }, 0)

/-- `ycbcr2rgb` (bitmap.c lines 921-951), same shape as `rgb2ycbcr`. -/
def ycbcr2rgb (im : Image) : Image × ℕ :=
  ({ im with pixel_data := im.pixel_data.map (fun row => row.map ycbcr2rgbPixel) }, 0)

theorem getPx_map_i (f : Pixel → Pixel) (hf : ∀ p, (f p).i = p.i)
    (g : List (List Pixel)) (i j : ℕ) :
    (getPx (g.map (fun row => row.map f)) i j).i = (getPx g i j).i := by
  unfold getPx
  simp only [List.getD_eq_getElem?_getD, List.getElem?_map]
  cases hrow : g[i]? with
  | none => simp
  | some row =>
    simp only [Option.map_some, Option.getD_some, List.getElem?_map]
    cases hp : row[j]? with
    | none => simp [hp]
    | some p => simp [hp, hf]

/-- C8: `rgb2ycbcr` and `ycbcr2rgb` modify only the blue, green and red
bytes of each pixel: the fourth (index/alpha) byte of every pixel, the
header and the palette are unchanged, and both functions return 0. -/
theorem colorConv_frame (im : Image) (i j : ℕ) :
    (rgb2ycbcr im).2 = 0 ∧ (ycbcr2rgb im).2 = 0 ∧
    (rgb2ycbcr im).1.bmp_header = im.bmp_header ∧
    (rgb2ycbcr im).1.palette = im.palette ∧
    (ycbcr2rgb im).1.bmp_header = im.bmp_header ∧
    (ycbcr2rgb im).1.palette = im.palette ∧
    (getPx (rgb2ycbcr im).1.pixel_data i j).i = (getPx im.pixel_data i j).i ∧
    (getPx (ycbcr2rgb im).1.pixel_data i j).i = (getPx im.pixel_data i j).i :=
  ⟨rfl, rfl, rfl, rfl, rfl, rfl,
    getPx_map_i rgb2ycbcrPixel (fun _ => rfl) im.pixel_data i j,
    getPx_map_i ycbcr2rgbPixel (fun _ => rfl) im.pixel_data i j⟩

/-- An all-zero header, used to build concrete test images. -/
def zeroHeader : Bmp_header :=
  ⟨0, 0, 0, 0, 0, 0, 0, 0, 0, 0, 0, 0, 0, 0, 0, 0, ⟨⟨0, 0, 0⟩, ⟨0, 0, 0⟩, ⟨0, 0, 0⟩⟩,
    0, 0, 0, 0, 0, 0, 0⟩

/-- A concrete `width × height` header at a given depth. -/
def mkHeader (w h bpp : ℕ) : Bmp_header :=
  { zeroHeader with width := w, height := h, bit_per_pixel := bpp }

/-- One-pixel 24-bit image whose pixel has R=100, G=150, B=200 (and 7 in
the index/alpha byte). -/
def imC3 : Image :=
  { bmp_header := mkHeader 1 1 24
    pixel_data := [[⟨200, 150, 100, 7⟩]]
    palette := [] }

/-- C3 (code_bug evidence): on the pixel (R,G,B) = (100,150,200) the code
stores Y = 140 in the blue slot but `128 + 0.713*(B−Y)` = 170 in the green
slot and `128 + 0.564*(R−Y)` = 105 in the red slot, whereas the claim (and
the function's own doc comment, bitmap.c lines 876-883) put
`128 + 0.564*(B−Y)` = 161 in green and `128 + 0.713*(R−Y)` = 99 in red:
the two coefficients are swapped in the code. -/
theorem rgb2ycbcr_swaps_coefficients :
    getPx (rgb2ycbcr imC3).1.pixel_data 0 0 = ⟨140, 170, 105, 7⟩ ∧
    toByteZ (Int.tdiv (128000 + 564 * ((200 : ℤ) - 140)) 1000) = 161 ∧
    toByteZ (Int.tdiv (128000 + 713 * ((100 : ℤ) - 140)) 1000) = 99 ∧
    ((170 : ℕ), (105 : ℕ)) ≠ ((161 : ℕ), (99 : ℕ)) := by
  refine ⟨by decide, by decide, by decide, by decide⟩

/-- One-pixel image with R=100, G=150, B=200 and a zero index byte. -/
def imC7 : Image :=
  { bmp_header := mkHeader 1 1 24
    pixel_data := [[⟨200, 150, 100, 0⟩]]
    palette := [] }

/-- Pixel produced by `ycbcr2rgb (rgb2ycbcr imC7)` at (0,0). -/
def c7Result : Pixel := getPx (ycbcr2rgb (rgb2ycbcr imC7).1).1.pixel_data 0 0

/-- C7 (code_bug evidence): starting from (R,G,B) = (100,150,200) the
composition `ycbcr2rgb ∘ rgb2ycbcr` of the code yields
(R,G,B) = (107,141,214): the red channel is off by 7, the green by 9 and
the blue by 14, so the round trip is not within ±2 of the original (the
swapped Cb/Cr coefficients of `rgb2ycbcr` are responsible; with the
coefficients of the doc comment the round trip gives (99,149,198), inside
the claimed tolerance). -/
theorem ycbcr_roundtrip_not_within_2 :
    c7Result = ⟨214, 141, 107, 0⟩ ∧
    ¬(|(c7Result.r : ℤ) - 100| ≤ 2 ∧ |(c7Result.g : ℤ) - 150| ≤ 2 ∧
      |(c7Result.b : ℤ) - 200| ≤ 2) := by
  refine ⟨by decide, by decide⟩

/-- Well-formed image: the grid has `height` rows of `width` pixels each
and every pixel byte is in range (automatic in C, where the fields are
`uint8_t`). -/
abbrev wfImage (im : Image) : Prop :=
  im.pixel_data.length = im.bmp_header.height ∧
  (∀ row ∈ im.pixel_data, row.length = im.bmp_header.width) ∧
  ∀ row ∈ im.pixel_data, ∀ p ∈ row, p.b < 256 ∧ p.g < 256 ∧ p.r < 256 ∧ p.i < 256

theorem getChan_lt_256 (p : Pixel)
    (hp : p.b < 256 ∧ p.g < 256 ∧ p.r < 256 ∧ p.i < 256) (c : ℕ) :
    getChan p c < 256 := by
  unfold getChan
  rcases c with _ | _ | _ | _ | c <;> simp_all

/-- Histogram bin bump, `hist[v] += 1` (bitmap.c line 823).  In C the
index is a byte so it is always in range; `List.set` is a no-op out of
range. -/
def bumpBin (acc : List ℕ) (v : ℕ) : List ℕ := acc.set v (acc.getD v 0 + 1)

/-- The two nested counting loops of `histogram` (bitmap.c lines
819-823), folded over the row-major pixel sequence. -/
def histFold (ch : ℕ) : List Pixel → List ℕ → List ℕ
  | [], acc => acc
  | p :: ps, acc => histFold ch ps (bumpBin acc (getChan p ch))

/-- `histogram` (bitmap.c lines 801-826): `NULL` on an invalid channel
(modelled as `none`), else 256 counts.  The allocation-failure path is
not modelled. -/
def histogram (im : Image) (channel : ℕ) : Option (List ℕ) :=
  if channel > 3 then none
  else some (histFold channel im.pixel_data.flatten (List.replicate 256 0))

theorem length_bumpBin (acc : List ℕ) (v : ℕ) :
    (bumpBin acc v).length = acc.length := List.length_set ..

theorem getD_bumpBin_self (acc : List ℕ) (v : ℕ) (hv : v < acc.length) :
    (bumpBin acc v).getD v 0 = acc.getD v 0 + 1 := by
  unfold bumpBin
  simp [List.getD_eq_getElem?_getD, List.getElem?_set_self hv]

theorem getD_bumpBin_ne (acc : List ℕ) (v u : ℕ) (h : v ≠ u) :
    (bumpBin acc v).getD u 0 = acc.getD u 0 := by
  unfold bumpBin
  simp [List.getD_eq_getElem?_getD, List.getElem?_set_ne h]

theorem sum_set_add_one :
    ∀ (l : List ℕ) (v : ℕ), v < l.length →
      (l.set v (l.getD v 0 + 1)).sum = l.sum + 1 := by
  intro l
  induction l with
  | nil => intro v hv; simp at hv
  | cons x xs ih =>
    intro v hv
    cases v with
    | zero => simp [List.getD]; omega
    | succ v =>
      simp only [List.set, List.getD_cons_succ, List.sum_cons]
      rw [ih v (by simpa using hv)]
      omega

theorem sum_bumpBin (acc : List ℕ) (v : ℕ) (hv : v < acc.length) :
    (bumpBin acc v).sum = acc.sum + 1 := sum_set_add_one acc v hv

theorem length_histFold (ch : ℕ) (ps : List Pixel) :
    ∀ acc, (histFold ch ps acc).length = acc.length := by
  induction ps with
  | nil => intro acc; rfl
  | cons p ps ih =>
    intro acc
    rw [histFold, ih, length_bumpBin]

theorem sum_histFold (ch : ℕ) (ps : List Pixel) :
    ∀ acc, (∀ p ∈ ps, getChan p ch < acc.length) →
      (histFold ch ps acc).sum = acc.sum + ps.length := by
  induction ps with
  | nil => intro acc _; rfl
  | cons p ps ih =>
    intro acc hacc
    rw [histFold, ih _ (fun q hq => by rw [length_bumpBin]; exact hacc q (by simp [hq])),
      sum_bumpBin _ _ (hacc p (by simp))]
    simp
    omega

theorem getD_histFold (ch : ℕ) (ps : List Pixel) :
    ∀ acc u, (∀ p ∈ ps, getChan p ch < acc.length) →
      (histFold ch ps acc).getD u 0 =
        acc.getD u 0 + ps.countP (fun p => decide (getChan p ch = u)) := by
  induction ps with
  | nil => intro acc u _; simp [histFold]
  | cons p ps ih =>
    intro acc u hacc
    rw [histFold, ih _ u (fun q hq => by rw [length_bumpBin]; exact hacc q (by simp [hq])),
      List.countP_cons]
    by_cases hpu : getChan p ch = u
    · rw [hpu, getD_bumpBin_self _ _ (hpu ▸ hacc p (by simp))]
      simp [hpu]
      omega
    · rw [getD_bumpBin_ne _ _ _ hpu]
      simp [hpu]

theorem length_flatten_rows (rows : List (List Pixel)) (w : ℕ)
    (h : ∀ r ∈ rows, r.length = w) : rows.flatten.length = rows.length * w := by
  induction rows with
  | nil => simp
  | cons r rows ih =>
    simp only [List.flatten_cons, List.length_append, List.length_cons]
    rw [ih (fun q hq => h q (by simp [hq])), h r (by simp)]
    ring

/-- C9: on a well-formed image and a channel in {0..3}, `histogram`
returns 256 bins totalling `width * height`, with bin `u` counting
exactly the pixels whose selected channel byte equals `u`. -/
theorem histogram_counts (im : Image) (channel : ℕ) (hch : channel ≤ 3)
    (hwf : wfImage im) :
    ∃ hist, histogram im channel = some hist ∧ hist.length = 256 ∧
      hist.sum = im.bmp_header.width * im.bmp_header.height ∧
      ∀ u < 256, hist.getD u 0 =
        im.pixel_data.flatten.countP (fun p => decide (getChan p channel = u)) := by
  obtain ⟨hh, hw, hb⟩ := hwf
  have hvals : ∀ p ∈ im.pixel_data.flatten,
      getChan p channel < (List.replicate 256 (0 : ℕ)).length := by
    intro p hp
    rw [List.length_replicate]
    obtain ⟨row, hrow, hpr⟩ := List.mem_flatten.1 hp
    exact getChan_lt_256 p (hb row hrow p hpr) channel
  refine ⟨_, by rw [histogram, if_neg (by omega)], ?_, ?_, ?_⟩
  · rw [length_histFold, List.length_replicate]
  · rw [sum_histFold _ _ _ hvals, length_flatten_rows im.pixel_data _ hw, hh]
    have hz : (List.replicate 256 (0 : ℕ)).sum = 0 := by
      rw [List.sum_replicate, smul_zero]
    rw [hz, Nat.zero_add, Nat.mul_comm]
  · intro u _
    rw [getD_histFold _ _ _ u hvals]
    have h0 : (List.replicate 256 (0 : ℕ)).getD u 0 = 0 := by
      rw [List.getD_eq_getElem?_getD, List.getElem?_replicate]
      split <;> rfl
    rw [h0, Nat.zero_add]

/-- 2×2 depth-8 image whose blue channel takes the values 0, 1, 2, 3. -/
def imEq : Image :=
  { bmp_header := mkHeader 2 2 8
    pixel_data := [[⟨0, 0, 0, 0⟩, ⟨1, 0, 0, 0⟩], [⟨2, 0, 0, 0⟩, ⟨3, 0, 0, 0⟩]]
    palette := [] }

theorem getChan_setChan_self (p : Pixel) (ch v : ℕ) (h : ch ≤ 3) :
    getChan (setChan p ch v) ch = v := by
  interval_cases ch <;> rfl

theorem getChan_setChan_ne (p : Pixel) (ch c v : ℕ) (hne : c ≠ ch) :
    getChan (setChan p ch v) c = getChan p c := by
  unfold getChan setChan
  rcases ch with _ | _ | _ | _ | ch <;> rcases c with _ | _ | _ | _ | c <;>
    first | rfl | exact absurd rfl hne

theorem getD_mem_of_lt {α : Type} :
    ∀ (l : List α) (n : ℕ) (d : α), n < l.length → l.getD n d ∈ l := by
  intro l
  induction l with
  | nil => intro n d h; simp at h
  | cons x xs ih =>
    intro n d h
    cases n with
    | zero => simp
    | succ n => simp only [List.getD_cons_succ]; right; exact ih n d (by simpa using h)

theorem getElem?_eq_some_getD {α : Type} (l : List α) (n : ℕ) (d : α)
    (h : n < l.length) : l[n]? = some (l.getD n d) := by
  rw [List.getD_eq_getElem?_getD, List.getElem?_eq_getElem h, Option.getD_some]

theorem getPx_map (f : Pixel → Pixel) (g : List (List Pixel)) (i j : ℕ)
    (hi : i < g.length) (hj : j < (g.getD i []).length) :
    getPx (g.map (fun row => row.map f)) i j = f (getPx g i j) := by
  have hrow : g[i]? = some (g.getD i []) := getElem?_eq_some_getD g i [] hi
  have hp : (g.getD i [])[j]? = some ((g.getD i []).getD j pixel0) :=
    getElem?_eq_some_getD _ j pixel0 hj
  have h1 : (g.map (fun row => row.map f)).getD i [] = (g.getD i []).map f := by
    rw [List.getD_eq_getElem?_getD, List.getElem?_map, hrow]
    rfl
  have h2 : ((g.getD i []).map f).getD j pixel0 = f ((g.getD i []).getD j pixel0) := by
    rw [List.getD_eq_getElem?_getD, List.getElem?_map, hp]
    rfl
  unfold getPx
  rw [h1, h2]

/-- Cumulative-distribution loop of `equalize` (bitmap.c lines 856-858):
`cdf[0] = h[0]; cdf[i] = cdf[i-1] + h[i]`, expressed as a running-sum
recursion over the histogram list. -/
def cdfGo (acc : ℕ) : List ℕ → List ℕ
  | [] => []
  | x :: xs => (acc + x) :: cdfGo (acc + x) xs

/-- Cumulative distribution of a histogram list. -/
def cdfOf (l : List ℕ) : List ℕ := cdfGo 0 l

/-- `equalize` (bitmap.c lines 831-874).  `area` is `width * height` in
`uint32_t` arithmetic (wraps mod 2^32); the coefficient
`c = (float)256 / (float)area` is a C `float` and the per-pixel store is
`px[ch] = c * cdf[px[ch]]` truncated on assignment to `uint8_t`.  The
float expression involves three round-to-nearest steps (the division,
the conversion `(float)cdf[v]`, and the product); it is modelled by the
exact value `256 * cdf[v] / area` with ℕ-division (and wrap mod 256 on
the out-of-range store, which in C is undefined).  The exact model and
the C floats coincide precisely when `area` is a power of two at most
2^24: then `(float)area` and `c = 2^(8-k)` are exact, every
`cdf[v] ≤ area ≤ 2^24` converts to float exactly, and multiplying an
exact float by a power of two is exact; the theorems below evaluate
`equalize` only on such areas (the universal remap theorem hypothesises
`area = 2^k, k ≤ 24`, and the concrete counterexample uses area 4).
For other areas the float roundings can shift the stored byte.
`area = 0` makes the C expression `256/0` undefined; ℕ-division
returns 0.  `equalizeGrid` is the doubly nested remapping loop
(lines 861-870). -/
def equalizeGrid (im : Image) (channel : ℕ) : List (List Pixel) :=
  im.pixel_data.map (fun row => row.map (fun p => setChan p channel
    (256 * (cdfOf (histFold channel im.pixel_data.flatten
        (List.replicate 256 0))).getD (getChan p channel) 0
      / (im.bmp_header.width * im.bmp_header.height % 4294967296) % 256)))

def equalize (im : Image) (channel : ℕ) : Option Image :=
  if channel > 3 then none
  else some { im with pixel_data := equalizeGrid im channel }

/-- Specification-side counting: number of pixels of `im` whose
`channel` byte is at most `v`. -/
def countLE (im : Image) (channel v : ℕ) : ℕ :=
  im.pixel_data.flatten.countP (fun p => decide (getChan p channel ≤ v))

theorem sum_take_getD :
    ∀ (l : List ℕ) (n : ℕ), n ≤ l.length →
      (l.take n).sum = ∑ u ∈ Finset.range n, l.getD u 0 := by
  intro l
  induction l with
  | nil =>
    intro n hn
    have hn0 : n = 0 := by simpa using hn
    subst hn0
    simp
  | cons x xs ih =>
    intro n hn
    cases n with
    | zero => simp
    | succ m =>
      rw [List.take_succ_cons, List.sum_cons, ih m (by simpa using hn),
        Finset.sum_range_succ' (fun u => (x :: xs).getD u 0) m]
      simp [List.getD_cons_succ]
      omega

theorem cdfGo_getD :
    ∀ (l : List ℕ) (acc v : ℕ), v < l.length →
      (cdfGo acc l).getD v 0 = acc + (l.take (v + 1)).sum := by
  intro l
  induction l with
  | nil => intro acc v hv; simp at hv
  | cons x xs ih =>
    intro acc v hv
    cases v with
    | zero => simp [cdfGo]
    | succ v =>
      rw [cdfGo, List.getD_cons_succ, ih (acc + x) v (by simpa using hv),
        List.take_succ_cons, List.sum_cons]
      omega

theorem countP_le_eq_sum (ch v : ℕ) :
    ∀ ps : List Pixel,
      ps.countP (fun p => decide (getChan p ch ≤ v)) =
        ∑ u ∈ Finset.range (v + 1), ps.countP (fun p => decide (getChan p ch = u)) := by
  intro ps
  induction ps with
  | nil => simp
  | cons p ps ih =>
    simp only [List.countP_cons, decide_eq_true_eq]
    rw [Finset.sum_add_distrib, ← ih, Finset.sum_ite_eq (Finset.range (v + 1))
      (getChan p ch) (fun _ => 1)]
    simp [Finset.mem_range, Nat.lt_succ_iff]

/-- The cdf entry at a byte value v equals the number of pixels with
channel value at most v. -/
theorem cdf_eq_countLE (im : Image) (channel v : ℕ) (hv : v < 256)
    (hbytes : ∀ p ∈ im.pixel_data.flatten, getChan p channel < 256) :
    (cdfOf (histFold channel im.pixel_data.flatten (List.replicate 256 0))).getD v 0 =
      countLE im channel v := by
  have hlen : (histFold channel im.pixel_data.flatten (List.replicate 256 0)).length
      = 256 := by rw [length_histFold, List.length_replicate]
  have hvals : ∀ p ∈ im.pixel_data.flatten,
      getChan p channel < (List.replicate 256 (0 : ℕ)).length := by
    intro p hp; rw [List.length_replicate]; exact hbytes p hp
  rw [cdfOf, cdfGo_getD _ 0 v (by omega), Nat.zero_add,
    sum_take_getD _ (v + 1) (by omega)]
  rw [countLE, countP_le_eq_sum]
  apply Finset.sum_congr rfl
  intro u _
  rw [getD_histFold _ _ _ u hvals]
  have h0 : (List.replicate 256 (0 : ℕ)).getD u 0 = 0 := by
    rw [List.getD_eq_getElem?_getD, List.getElem?_replicate]
    split <;> rfl
  rw [h0, Nat.zero_add]

/-- C6 (amended): for a channel in {0..3} on a well-formed image whose
pixel count `area = width*height` is a power of two at most 2^24 (the
regime in which the C float arithmetic `c = 256/area`, `c * cdf[v]` is
exact), `equalize` computes the 256-bin histogram and its cumulative
distribution over `area` pixels and replaces each pixel's channel value
`v` by `trunc(256/area · CDF[v])` (stored mod 256), where `CDF[v]`
counts the pixels with channel value at most `v`; other channels, the
header and the palette are untouched. -/
theorem equalize_remap (im : Image) (channel : ℕ) (hch : channel ≤ 3)
    (hwf : wfImage im)
    (harea : ∃ k ≤ 24, im.bmp_header.width * im.bmp_header.height = 2 ^ k) :
    ∃ im2, equalize im channel = some im2 ∧
      im2.bmp_header = im.bmp_header ∧ im2.palette = im.palette ∧
      ∀ i j, i < im.bmp_header.height → j < im.bmp_header.width →
        (getChan (getPx im2.pixel_data i j) channel =
          256 * countLE im channel (getChan (getPx im.pixel_data i j) channel)
            / (im.bmp_header.width * im.bmp_header.height) % 256 ∧
        ∀ c ≤ 3, c ≠ channel →
          getChan (getPx im2.pixel_data i j) c = getChan (getPx im.pixel_data i j) c) := by
  obtain ⟨hh, hw, hb⟩ := hwf
  obtain ⟨k, hk24, hkeq⟩ := harea
  have harea2 : im.bmp_header.width * im.bmp_header.height < 4294967296 := by
    rw [hkeq]
    calc (2 : ℕ) ^ k ≤ 2 ^ 24 := Nat.pow_le_pow_right (by omega) hk24
      _ < 4294967296 := by norm_num
  have hbytes : ∀ p ∈ im.pixel_data.flatten, getChan p channel < 256 := by
    intro p hp
    obtain ⟨row, hrow, hpr⟩ := List.mem_flatten.1 hp
    exact getChan_lt_256 p (hb row hrow p hpr) channel
  have heq : equalize im channel =
      some { im with pixel_data := equalizeGrid im channel } := by
    rw [equalize, if_neg (by omega)]
  refine ⟨_, heq, rfl, rfl, ?_⟩
  intro i j hi hj
  have hi' : i < im.pixel_data.length := by omega
  have hj' : j < (im.pixel_data.getD i []).length := by
    rw [hw (im.pixel_data.getD i []) (getD_mem_of_lt _ i [] hi')]
    exact hj
  have hmem : getPx im.pixel_data i j ∈ im.pixel_data.flatten :=
    List.mem_flatten.2 ⟨im.pixel_data.getD i [], getD_mem_of_lt _ i [] hi',
      getD_mem_of_lt _ j pixel0 hj'⟩
  unfold equalizeGrid
  rw [getPx_map _ _ _ _ hi' hj']
  constructor
  · rw [getChan_setChan_self _ _ _ hch,
      cdf_eq_countLE im channel _ (hbytes _ hmem) hbytes,
      Nat.mod_eq_of_lt harea2]
  · intro c _ hcne
    rw [getChan_setChan_ne _ _ _ _ hcne]

set_option maxRecDepth 8192 in
/-- Witness for C6 (amended) on the 2×2 image `imEq` (area 4 = 2^2),
blue channel. -/
theorem equalize_remap_witness :
    ((0 : ℕ) ≤ 3 ∧ wfImage imEq ∧
      (∃ k ≤ 24, imEq.bmp_header.width * imEq.bmp_header.height = 2 ^ k)) ∧
    (∃ im2, equalize imEq 0 = some im2 ∧
      im2.bmp_header = imEq.bmp_header ∧ im2.palette = imEq.palette ∧
      ∀ i j, i < imEq.bmp_header.height → j < imEq.bmp_header.width →
        (getChan (getPx im2.pixel_data i j) 0 =
          256 * countLE imEq 0 (getChan (getPx imEq.pixel_data i j) 0)
            / (imEq.bmp_header.width * imEq.bmp_header.height) % 256 ∧
        ∀ c ≤ 3, c ≠ 0 →
          getChan (getPx im2.pixel_data i j) c = getChan (getPx imEq.pixel_data i j) c)) :=
  ⟨⟨by decide, by decide, ⟨2, by decide, by decide⟩⟩,
    equalize_remap imEq 0 (by decide) (by decide) ⟨2, by decide, by decide⟩⟩

set_option maxRecDepth 8192 in
/-- C6 counterexample: on the 2×2 image `imEq` (blue values 0,1,2,3) the
pixel at (1,0) has value 2 with CDF 3; the code stores
`trunc(256/4 · 3) = 192`, while the claim's formula
`round(255/area · CDF[v]) = round(191.25) = 191` differs. -/
theorem equalize_not_round_255 :
    (equalize imEq 0).map (fun im2 => getChan (getPx im2.pixel_data 1 0) 0) =
      some 192 ∧
    countLE imEq 0 2 = 3 ∧
    round ((255 : ℚ) / ((2 * 2 : ℕ) : ℚ) * ((countLE imEq 0 2 : ℕ) : ℚ)) = 191 ∧
    (192 : ℕ) ≠ 191 := by
  refine ⟨by decide, by decide, ?_, by decide⟩
  have h3 : countLE imEq 0 2 = 3 := by decide
  rw [h3, round_eq]
  norm_num

/-- Witness for C9 on the concrete 2×2 image `imEq`, blue channel. -/
theorem histogram_counts_witness :
    ((0 : ℕ) ≤ 3 ∧ wfImage imEq) ∧
    (∃ hist, histogram imEq 0 = some hist ∧ hist.length = 256 ∧
      hist.sum = imEq.bmp_header.width * imEq.bmp_header.height ∧
      ∀ u < 256, hist.getD u 0 =
        imEq.pixel_data.flatten.countP (fun p => decide (getChan p 0 = u))) :=
  ⟨⟨by decide, by decide⟩, histogram_counts imEq 0 (by decide) (by decide)⟩

/-- Bit masks for the bits of a byte, `mask1` (bitmap.c line 69). -/
def mask1 : List ℕ := [128, 64, 32, 16, 8, 4, 2, 1]

/-- Nibble masks, `mask4` (bitmap.c line 70); index 0 is HI_NIBBLE,
index 1 is LO_NIBBLE. -/
def mask4 : List ℕ := [240, 15]

/-- Inner packing loop of the 1-bpp case of `save_bitmap` (bitmap.c
lines 561-579): for `bit` from 7 down to 0 while pixels remain,
`tmp |= (px.i == 0 ? 0 : 1) << bit`, emitting `tmp` when the bit counter
is exhausted (continuing with the next byte if pixels remain) or at the
row's end.  The argument list carries the `.i` bytes
`image.pixel_data[i][j].i` of the row still to pack. -/
def pack1Go : List ℕ → ℕ → ℕ → List ℕ
  | [], _, tmp => [tmp]
  | v :: vs, bit, tmp =>
    if bit = 0 then (tmp ||| ((if v = 0 then 0 else 1) <<< bit)) ::
      (if vs = [] then [] else pack1Go vs 7 0)
    else pack1Go vs (bit - 1) (tmp ||| ((if v = 0 then 0 else 1) <<< bit))

/-- 1-bpp row packer of `save_bitmap` (row of index bytes → packed row
bytes, alignment padding not included: the buffer is `calloc`ed and the
padding bytes are skipped, staying 0). -/
def pack1Row (row : List ℕ) : List ℕ :=
  match row with
  | [] => []
  | _ => pack1Go row 7 0

/-- Value of one packed 1-bpp byte: the k-th listed pixel contributes
its on/off bit at position `bit - k` (specification-side helper for the
accumulated `tmp`). -/
def pack1Byte : List ℕ → ℕ → ℕ
  | [], _ => 0
  | v :: vs, bit => ((if v = 0 then 0 else 1) <<< bit) ||| pack1Byte vs (bit - 1)

theorem pack1Go_eq :
    ∀ (vs : List ℕ) (bit tmp : ℕ),
      pack1Go vs bit tmp = (tmp ||| pack1Byte (vs.take (bit + 1)) bit) ::
        (if vs.drop (bit + 1) = [] then [] else pack1Go (vs.drop (bit + 1)) 7 0) := by
  intro vs
  induction vs with
  | nil =>
    intro bit tmp
    simp [pack1Go, pack1Byte]
  | cons v vs ih =>
    intro bit tmp
    by_cases hbit : bit = 0
    · subst hbit
      simp only [pack1Go, if_pos rfl, List.take_succ_cons, List.take_zero,
        List.drop_succ_cons, List.drop_zero, pack1Byte, Nat.or_zero]
      simp
    · have hb : bit - 1 + 1 = bit := by omega
      simp only [pack1Go, if_neg hbit]
      rw [ih (bit - 1) (tmp ||| ((if v = 0 then 0 else 1) <<< bit)), hb,
        List.take_succ_cons, List.drop_succ_cons]
      simp only [pack1Byte]
      rw [Nat.or_assoc]

theorem pack1Row_chunk (row : List ℕ) (h : row ≠ []) :
    pack1Row row = pack1Byte (row.take 8) 7 :: pack1Row (row.drop 8) := by
  match row, h with
  | v :: vs, _ =>
    show pack1Go (v :: vs) 7 0 = _
    rw [pack1Go_eq, Nat.zero_or]
    cases hd : (v :: vs).drop 8 with
    | nil => simp [pack1Row]
    | cons x xs => simp [pack1Row]

theorem pack1Byte_lt :
    ∀ (vs : List ℕ) (bit : ℕ), pack1Byte vs bit < 2 ^ (bit + 1) := by
  intro vs
  induction vs with
  | nil => intro bit; exact Nat.pos_pow_of_pos _ (by omega)
  | cons v vs ih =>
    intro bit
    apply Nat.or_lt_two_pow
    · rw [Nat.shiftLeft_eq]
      have hb1 : (if v = 0 then 0 else 1) ≤ 1 := by by_cases h : v = 0 <;> simp [h]
      have h2 : (if v = 0 then 0 else 1) * 2 ^ bit ≤ 2 ^ bit := by
        simpa using Nat.mul_le_mul_right (2 ^ bit) hb1
      have h3 : (2 : ℕ) ^ bit < 2 ^ (bit + 1) := by
        have hp := Nat.pos_pow_of_pos bit (show 0 < 2 by omega)
        rw [Nat.pow_succ]
        omega
      omega
    · calc pack1Byte vs (bit - 1) < 2 ^ (bit - 1 + 1) := ih (bit - 1)
        _ ≤ 2 ^ (bit + 1) := Nat.pow_le_pow_right (by omega) (by omega)

theorem testBit_pack1Byte :
    ∀ (vs : List ℕ) (bit k : ℕ), vs.length ≤ bit + 1 → k < vs.length →
      Nat.testBit (pack1Byte vs bit) (bit - k) = decide (vs.getD k 0 ≠ 0) := by
  intro vs
  induction vs with
  | nil => intro bit k _ hk; simp at hk
  | cons v vs ih =>
    intro bit k hlen hk
    cases k with
    | zero =>
      have hrest : pack1Byte vs (bit - 1) < 2 ^ bit := by
        rcases Nat.eq_zero_or_pos bit with hb | hb
        · subst hb
          have : vs = [] := by
            cases vs with
            | nil => rfl
            | cons x xs => simp at hlen
          subst this
          simp [pack1Byte]
        · calc pack1Byte vs (bit - 1) < 2 ^ (bit - 1 + 1) := pack1Byte_lt vs (bit - 1)
            _ = 2 ^ bit := by congr 1; omega
      rw [pack1Byte, Nat.sub_zero, Nat.testBit_or, Nat.testBit_shiftLeft,
        Nat.testBit_lt_two_pow hrest, Bool.or_false]
      by_cases hv : v = 0 <;> simp [hv]
    | succ k =>
      simp only [List.length_cons] at hlen hk
      have hkb : k + 1 ≤ bit := by omega
      rw [pack1Byte, Nat.testBit_or, Nat.testBit_shiftLeft]
      have hge : ¬(bit - (k + 1) ≥ bit) := by omega
      simp only [ge_iff_le]
      rw [decide_eq_false (by omega), Bool.false_and, Bool.false_or]
      have hsub : bit - (k + 1) = bit - 1 - k := by omega
      rw [hsub, List.getD_cons_succ]
      exact ih (bit - 1) k (by omega) (by omega)

theorem pack1Row_bits_aux :
    ∀ (n : ℕ) (row : List ℕ) (j : ℕ), j / 8 = n → j < row.length →
      Nat.testBit ((pack1Row row).getD (j / 8) 0) (7 - j % 8) =
        decide (row.getD j 0 ≠ 0) := by
  intro n
  induction n with
  | zero =>
    intro row j hn hj
    have hj8 : j < 8 := by omega
    have hne : row ≠ [] := by
      cases row with
      | nil => simp at hj
      | cons x xs => simp
    rw [pack1Row_chunk row hne, hn]
    have hjt : j < (row.take 8).length := by
      rw [List.length_take]
      omega
    have hj7 : 7 - j % 8 = 7 - j := by omega
    have hgd : (row.take 8).getD j 0 = row.getD j 0 := by
      rw [List.getD_eq_getElem?_getD, List.getD_eq_getElem?_getD,
        List.getElem?_take, if_pos hj8]
    rw [List.getD_cons_zero, hj7, ← hgd]
    exact testBit_pack1Byte (row.take 8) 7 j (by rw [List.length_take]; omega) hjt
  | succ n ih =>
    intro row j hn hj
    have hj8 : 8 ≤ j := by omega
    have hne : row ≠ [] := by
      cases row with
      | nil => simp at hj
      | cons x xs => simp
    rw [pack1Row_chunk row hne, hn]
    have hstep : (pack1Byte (row.take 8) 7 :: pack1Row (row.drop 8)).getD (n + 1) 0 =
        (pack1Row (row.drop 8)).getD n 0 := List.getD_cons_succ
    rw [hstep]
    have hn' : (j - 8) / 8 = n := by omega
    have hj' : j - 8 < (row.drop 8).length := by
      rw [List.length_drop]
      omega
    have hmod : 7 - j % 8 = 7 - (j - 8) % 8 := by omega
    have hgd : (row.drop 8).getD (j - 8) 0 = row.getD j 0 := by
      rw [List.getD_eq_getElem?_getD, List.getD_eq_getElem?_getD,
        List.getElem?_drop]
      have h8j : 8 + (j - 8) = j := by omega
      rw [h8j]
    rw [hmod, ← hgd, ← hn']
    exact ih (row.drop 8) (j - 8) hn' hj'

/-- C10: when saving a 1-bpp row, the on-disk bit of pixel `j` (bit
`7 - j mod 8` of byte `j / 8`, most significant bit = leftmost pixel) is
set exactly when the pixel's index byte is nonzero; in particular an
index value greater than 1 is encoded as 1, not stored verbatim. -/
theorem save1bpp_bit (row : List ℕ) (j : ℕ) (hj : j < row.length) :
    Nat.testBit ((pack1Row row).getD (j / 8) 0) (7 - j % 8) =
      decide (row.getD j 0 ≠ 0) :=
  pack1Row_bits_aux (j / 8) row j rfl hj

/-- Witness for C10: the single-pixel row with index value 2 packs to the
byte 128 (bit 7 set, i.e. the value 2 is encoded as the bit 1). -/
theorem save1bpp_bit_witness :
    ((0 : ℕ) < ([2] : List ℕ).length ∧ pack1Row [2] = [128]) ∧
    Nat.testBit ((pack1Row [2]).getD (0 / 8) 0) (7 - 0 % 8) =
      decide (([2] : List ℕ).getD 0 0 ≠ 0) :=
  ⟨⟨by decide, by decide⟩, save1bpp_bit [2] 0 (by decide)⟩

/-- 4-bpp packing loop of `save_bitmap` (bitmap.c lines 583-602), with
the loop position `j` made explicit because the low-nibble guard
compares `j + 1` against the image HEIGHT (line 592:
`if (j + 1 < h->height)`) — not the width used by the matching unpack
loop (line 402).  `tmp |= p.i << 4` on the `uint8_t` tmp truncates mod
256.  When only one pixel remains and the guard holds, C reads
`pixel_data[i][j+1]` past the end of the row (undefined behaviour);
that read is modelled as 0. -/
def pack4Go (ht : ℕ) : List ℕ → ℕ → List ℕ
  | [], _ => []
  | [a], _ => [(a <<< 4) % 256]
  | a :: b :: rest, j =>
    (if j + 1 < ht then (a <<< 4) % 256 ||| (b &&& 15) else (a <<< 4) % 256)
      :: pack4Go ht rest (j + 2)

/-- 4-bpp row packer of `save_bitmap` (row of index bytes → packed row
bytes, padding excluded). -/
def pack4Row (ht : ℕ) (row : List ℕ) : List ℕ := pack4Go ht row 0

/-- 4-bpp row packer including the 4-byte-alignment padding (the pixel
buffer is `calloc`ed, so the skipped padding bytes stay 0). -/
def pack4RowFramed (ht w : ℕ) (row : List ℕ) : List ℕ :=
  pack4Row ht row ++ List.replicate (saveBitmapRowPad w 4) 0

/-- 4-bpp unpacking loop of `open_bitmap` (bitmap.c lines 393-412): per
byte, the high nibble is the left pixel and the low nibble the next
pixel (read only while `j + 1 < width`); the first argument counts the
pixels still to produce. -/
def unpack4Go : ℕ → List ℕ → List ℕ
  | 0, _ => []
  | 1, bs => [readMask (bs.getD 0 0) (mask4.getD 0 0)]
  | w + 2, bs => readMask (bs.getD 0 0) (mask4.getD 0 0)
      :: readMask (bs.getD 0 0) (mask4.getD 1 0) :: unpack4Go w (bs.drop 1)

/-- 4-bpp row unpacker of `open_bitmap` (`w` = image width, `bs` = the
framed row bytes; surplus (padding) bytes are skipped). -/
def unpack4Row (w : ℕ) (bs : List ℕ) : List ℕ := unpack4Go w bs

/-- C1 (code_bug evidence): at depth 4, width 2, height 1, the row with
index values [1, 2] packs to the framed row [0x10, 0, 0, 0] — the low
nibble of pixel 1 is dropped because `save_bitmap` guards it with
`j + 1 < height` instead of `j + 1 < width` — and unpacking returns
[1, 0] ≠ [1, 2], so pack and unpack are not mutual inverses at depth 4. -/
theorem pack4_unpack4_not_inverse :
    pack4RowFramed 1 2 [1, 2] = [16, 0, 0, 0] ∧
    unpack4Row 2 (pack4RowFramed 1 2 [1, 2]) = [1, 0] ∧
    ([1, 0] : List ℕ) ≠ [1, 2] := by
  refine ⟨by decide, by decide, by decide⟩

/-- Cursor of the steganographic walk: pixel row `i`, column `j` and
channel `ch` (0 = blue, 1 = green, 2 = red). -/
structure Cursor where
  i : ℕ
  j : ℕ
  ch : ℕ
  deriving DecidableEq

/-- NEXT macro (bitmap.c lines 53-66): advance to the next channel,
cycling b → g → r and then to the next pixel in row-major order. -/
def next (w : ℕ) (c : Cursor) : Cursor :=
  if c.ch + 1 = 3 then
    (if c.j + 1 = w then ⟨c.i + 1, 0, 0⟩ else ⟨c.i, c.j + 1, 0⟩)
  else ⟨c.i, c.j, c.ch + 1⟩

/-- Iterated NEXT. -/
def nextN (w : ℕ) (c : Cursor) : ℕ → Cursor
  | 0 => c
  | n + 1 => nextN w (next w c) n

/-- Flat index of a cursor in the walk order. -/
def toIdx (w : ℕ) (c : Cursor) : ℕ := 3 * (c.i * w + c.j) + c.ch

/-- In-bounds cursor components that NEXT keeps invariant. -/
def inB (w : ℕ) (c : Cursor) : Prop := c.j < w ∧ c.ch < 3

/-- Channel byte under a cursor,
`((uint8_t*)&image.pixel_data[i][j])[ch]`. -/
def getUnit (g : List (List Pixel)) (c : Cursor) : ℕ :=
  getChan (getPx g c.i c.j) c.ch

/-- Point update of a list entry (out-of-range index: no-op; the C
counterpart would be an out-of-bounds write, and every write reached in
the theorems below is in range). -/
def updateNth {α : Type} (f : α → α) : ℕ → List α → List α
  | _, [] => []
  | 0, x :: xs => f x :: xs
  | n + 1, x :: xs => x :: updateNth f n xs

/-- Write one payload bit `b ∈ {0,1}` at the cursor (bitmap.c lines
998-1001 and the twin sites): clamp 255 → 254 first, then add
`(px % 2 + b) % 2` so the byte's parity becomes `b`. -/
def writeUnit (g : List (List Pixel)) (c : Cursor) (b : ℕ) : List (List Pixel) :=
  updateNth (fun row => updateNth (fun p =>
    setChan p c.ch ((if getChan p c.ch = 255 then getChan p c.ch - 1 else getChan p c.ch) +
      ((if getChan p c.ch = 255 then getChan p c.ch - 1 else getChan p c.ch) % 2 + b) % 2))
    c.j row) c.i g

/-- Sequentially write a list of bits starting at a cursor, one loop
iteration per bit with the cursor advanced by NEXT; returns the new grid
and the final cursor (the C loops mutate `i`, `j`, `ch` in place). -/
def writeBits (w : ℕ) : List ℕ → List (List Pixel) → Cursor →
    List (List Pixel) × Cursor
  | [], g, c => (g, c)
  | b :: bs, g, c => writeBits w bs (writeUnit g c b) (next w c)

/-- Sequentially read `n` channel parities starting at a cursor. -/
def readBits (w : ℕ) (g : List (List Pixel)) : ℕ → Cursor → List ℕ
  | 0, _ => []
  | n + 1, c => getUnit g c % 2 :: readBits w g n (next w c)

/-- Random filler loop of `steganography_write` (bitmap.c lines
1019-1027): while `i < height`, write one random parity and advance.
The first ℕ argument is fuel bounding the iteration count (from an
in-bounds cursor the loop runs exactly `3*w*h - toIdx` times, so the
fuel `3*w*h` passed by `stegWriteGrid` is enough and the guard
`c.i < h` preserves the C loop's exit condition exactly); `rnd t` models
the t-th `rand() % 2` draw. -/
def fillRand (w hh : ℕ) (rnd : ℕ → ℕ) : ℕ → List (List Pixel) → Cursor → ℕ →
    List (List Pixel)
  | 0, g, _, _ => g
  | fuel + 1, g, c, t =>
    if c.i < hh then
      fillRand w hh rnd fuel (writeUnit g c (rnd t % 2)) (next w c) (t + 1)
    else g

/-- The LSB-first bit list `(n >> k) & 1`, `k = 0, …, count-1`, written
by the length/payload loops (bitmap.c lines 996-1003, 1006-1016). -/
def bitsOfNat (n : ℕ) : ℕ → List ℕ
  | 0 => []
  | k + 1 => (n &&& 1) :: bitsOfNat (n >>> 1) k

/-- Value of an LSB-first parity list, as accumulated by
`len += (px % 2) << k` and `res[k] += (px % 2) << l` (bitmap.c lines
1062, 1082). -/
def bitsValue : List ℕ → ℕ
  | [] => 0
  | b :: bs => b + 2 * bitsValue bs

/-- Steganographic capacity `(w*h*3 - 32) / CHAR_BIT` (bitmap.c lines
972, 1043), computed in C `unsigned` (32-bit) arithmetic: the products
and the subtraction wrap mod 2^32. -/
def allowedLen (w hh : ℕ) : ℕ :=
  ((w * hh % 4294967296) * 3 % 4294967296 + 4294967296 - 32) % 4294967296 / 8

/-- Errors of `steganography_write` (both return 1 in C, with distinct
diagnostics, bitmap.c lines 976-991; the spec names them
PayloadTooLarge and UnsupportedDepth). -/
inductive StegErr where
  | payloadTooLarge : StegErr
  | unsupportedDepth : StegErr
  deriving DecidableEq

/-- Pixel grid produced by a successful `steganography_write`: the two
sequential write loops emit exactly the LSB-first bits of the 32-bit
length followed by the bits of the payload bytes `s ++ [0]`
(`string[len-1]` is the NUL terminator), then the filler loop runs on
the remaining units. -/
def stegWriteGrid (im : Image) (s : List ℕ) (rnd : ℕ → ℕ) : List (List Pixel) :=
  fillRand im.bmp_header.width im.bmp_header.height rnd
    (3 * im.bmp_header.width * im.bmp_header.height)
    (writeBits im.bmp_header.width
      (bitsOfNat (s.length + 1) 32 ++ (s ++ [0]).flatMap (fun x => bitsOfNat x 8))
      im.pixel_data ⟨0, 0, 0⟩).1
    (writeBits im.bmp_header.width
      (bitsOfNat (s.length + 1) 32 ++ (s ++ [0]).flatMap (fun x => bitsOfNat x 8))
      im.pixel_data ⟨0, 0, 0⟩).2
    0

/-- `steganography_write` (bitmap.c lines 968-1030).  `s` lists the byte
values of the C string (terminator excluded); `len = strlen + 1`.  The
capacity check precedes the depth check, in source order. -/
def stegWrite (im : Image) (s : List ℕ) (rnd : ℕ → ℕ) : Except StegErr Image :=
  if s.length + 1 > allowedLen im.bmp_header.width im.bmp_header.height then
    Except.error StegErr.payloadTooLarge
  else if im.bmp_header.bit_per_pixel < 16 then
    Except.error StegErr.unsupportedDepth
  else Except.ok { im with pixel_data := stegWriteGrid im s rnd }

/-- Read `count` bytes of 8 LSB-first bits each (message loop of
`steganography_read`, bitmap.c lines 1077-1085). -/
def readBytes (w : ℕ) (g : List (List Pixel)) : ℕ → Cursor → List ℕ
  | 0, _ => []
  | k + 1, c => bitsValue (readBits w g 8 c) :: readBytes w g k (nextN w c 8)

/-- `steganography_read` (bitmap.c lines 1040-1088): `none` models the
`NULL` returns (depth < 16, or a decoded length above the capacity). -/
def stegRead (im : Image) : Option (List ℕ) :=
  if im.bmp_header.bit_per_pixel < 16 then none
  else if bitsValue (readBits im.bmp_header.width im.pixel_data 32 ⟨0, 0, 0⟩) >
      allowedLen im.bmp_header.width im.bmp_header.height then none
  else some (readBytes im.bmp_header.width im.pixel_data
    (bitsValue (readBits im.bmp_header.width im.pixel_data 32 ⟨0, 0, 0⟩))
    (nextN im.bmp_header.width ⟨0, 0, 0⟩ 32))

theorem toIdx_next (w : ℕ) (c : Cursor) (h : inB w c) :
    toIdx w (next w c) = toIdx w c + 1 := by
  obtain ⟨hj, hch⟩ := h
  unfold next toIdx
  by_cases h3 : c.ch + 1 = 3
  · rw [if_pos h3]
    by_cases hw : c.j + 1 = w
    · rw [if_pos hw]
      show 3 * ((c.i + 1) * w + 0) + 0 = 3 * (c.i * w + c.j) + c.ch + 1
      rw [Nat.add_mul]
      omega
    · rw [if_neg hw]
      show 3 * (c.i * w + (c.j + 1)) + 0 = 3 * (c.i * w + c.j) + c.ch + 1
      omega
  · rw [if_neg h3]
    show 3 * (c.i * w + c.j) + (c.ch + 1) = 3 * (c.i * w + c.j) + c.ch + 1
    omega

theorem inB_next (w : ℕ) (c : Cursor) (hw : 1 ≤ w) (h : inB w c) :
    inB w (next w c) := by
  obtain ⟨hj, hch⟩ := h
  unfold next inB
  by_cases h3 : c.ch + 1 = 3
  · rw [if_pos h3]
    by_cases hjw : c.j + 1 = w
    · rw [if_pos hjw]
      exact ⟨hw, show (0 : ℕ) < 3 by omega⟩
    · rw [if_neg hjw]
      exact ⟨show c.j + 1 < w by omega, show (0 : ℕ) < 3 by omega⟩
  · rw [if_neg h3]
    exact ⟨hj, show c.ch + 1 < 3 by omega⟩

theorem inB_nextN (w : ℕ) (hw : 1 ≤ w) :
    ∀ (n : ℕ) (c : Cursor), inB w c → inB w (nextN w c n) := by
  intro n
  induction n with
  | zero => intro c h; exact h
  | succ n ih => intro c h; exact ih (next w c) (inB_next w c hw h)

theorem toIdx_nextN (w : ℕ) (hw : 1 ≤ w) :
    ∀ (n : ℕ) (c : Cursor), inB w c → toIdx w (nextN w c n) = toIdx w c + n := by
  intro n
  induction n with
  | zero => intro c _; rfl
  | succ n ih =>
    intro c h
    show toIdx w (nextN w (next w c) n) = toIdx w c + (n + 1)
    rw [ih (next w c) (inB_next w c hw h), toIdx_next w c h]
    omega

theorem length_updateNth {α : Type} (f : α → α) :
    ∀ (l : List α) (n : ℕ), (updateNth f n l).length = l.length := by
  intro l
  induction l with
  | nil => intro n; cases n <;> rfl
  | cons x xs ih =>
    intro n
    cases n with
    | zero => rfl
    | succ n =>
      show (x :: updateNth f n xs).length = (x :: xs).length
      simp [ih n]

theorem updateNth_eq_of_le {α : Type} (f : α → α) :
    ∀ (l : List α) (n : ℕ), l.length ≤ n → updateNth f n l = l := by
  intro l
  induction l with
  | nil => intro n _; cases n <;> rfl
  | cons x xs ih =>
    intro n h
    cases n with
    | zero => simp at h
    | succ n =>
      show x :: updateNth f n xs = x :: xs
      rw [ih n (by simpa using h)]

theorem getD_updateNth_self {α : Type} (f : α → α) :
    ∀ (l : List α) (n : ℕ) (d : α), n < l.length →
      (updateNth f n l).getD n d = f (l.getD n d) := by
  intro l
  induction l with
  | nil => intro n d h; simp at h
  | cons x xs ih =>
    intro n d h
    cases n with
    | zero => rfl
    | succ n =>
      show (x :: updateNth f n xs).getD (n + 1) d = f ((x :: xs).getD (n + 1) d)
      rw [List.getD_cons_succ, List.getD_cons_succ]
      exact ih n d (by simpa using h)

theorem getD_updateNth_ne {α : Type} (f : α → α) :
    ∀ (l : List α) (n m : ℕ) (d : α), n ≠ m →
      (updateNth f n l).getD m d = l.getD m d := by
  intro l
  induction l with
  | nil => intro n m d _; cases n <;> rfl
  | cons x xs ih =>
    intro n m d hnm
    cases n with
    | zero =>
      cases m with
      | zero => exact absurd rfl hnm
      | succ m =>
        show (f x :: xs).getD (m + 1) d = (x :: xs).getD (m + 1) d
        rw [List.getD_cons_succ, List.getD_cons_succ]
    | succ n =>
      cases m with
      | zero => rfl
      | succ m =>
        show (x :: updateNth f n xs).getD (m + 1) d = (x :: xs).getD (m + 1) d
        rw [List.getD_cons_succ, List.getD_cons_succ]
        exact ih n m d (by omega)

theorem forall_mem_updateNth {α : Type} (P : α → Prop) (f : α → α)
    (hf : ∀ x, P x → P (f x)) :
    ∀ (l : List α) (n : ℕ), (∀ x ∈ l, P x) → ∀ x ∈ updateNth f n l, P x := by
  intro l
  induction l with
  | nil =>
    intro n h x hx
    cases n <;> simp [updateNth] at hx
  | cons a as ih =>
    intro n h x hx
    cases n with
    | zero =>
      rcases List.mem_cons.1 hx with rfl | hx
      · exact hf a (h a (by simp))
      · exact h x (by simp [hx])
    | succ n =>
      rcases List.mem_cons.1 hx with rfl | hx
      · exact h x (by simp)
      · exact ih n (fun y hy => h y (by simp [hy])) x hx

theorem getUnit_writeUnit_ne (g : List (List Pixel)) (c c' : Cursor) (b : ℕ)
    (hne : ¬(c'.i = c.i ∧ c'.j = c.j ∧ c'.ch = c.ch)) :
    getUnit (writeUnit g c b) c' = getUnit g c' := by
  unfold getUnit getPx writeUnit
  by_cases hi : c'.i = c.i
  · rw [hi]
    by_cases hleni : c.i < g.length
    · rw [getD_updateNth_self _ _ _ _ hleni]
      by_cases hj : c'.j = c.j
      · rw [hj]
        by_cases hlenj : c.j < (g.getD c.i []).length
        · rw [getD_updateNth_self _ _ _ _ hlenj]
          have hch : c'.ch ≠ c.ch := by tauto
          exact getChan_setChan_ne _ _ _ _ hch
        · rw [updateNth_eq_of_le _ _ _ (by omega)]
      · rw [getD_updateNth_ne _ _ _ _ _ (fun he => hj he.symm)]
    · rw [updateNth_eq_of_le _ _ _ (by omega)]
  · rw [getD_updateNth_ne _ _ _ _ _ (fun he => hi he.symm)]

theorem getUnit_writeUnit_self (g : List (List Pixel)) (c : Cursor) (b : ℕ)
    (hi : c.i < g.length) (hj : c.j < (g.getD c.i []).length) (hch : c.ch ≤ 3) :
    getUnit (writeUnit g c b) c % 2 = b % 2 := by
  unfold getUnit getPx writeUnit
  rw [getD_updateNth_self _ _ _ _ hi, getD_updateNth_self _ _ _ _ hj,
    getChan_setChan_self _ _ _ hch]
  generalize getChan ((g.getD c.i []).getD c.j pixel0) c.ch = v
  by_cases hv : v = 255 <;> simp [hv] <;> omega

theorem length_writeUnit (g : List (List Pixel)) (c : Cursor) (b : ℕ) :
    (writeUnit g c b).length = g.length := length_updateNth _ g c.i

theorem rowsLen_writeUnit (w : ℕ) (g : List (List Pixel)) (c : Cursor) (b : ℕ)
    (h : ∀ row ∈ g, row.length = w) :
    ∀ row ∈ writeUnit g c b, row.length = w := by
  unfold writeUnit
  refine forall_mem_updateNth _ _ ?_ g c.i h
  intro x hx
  rw [length_updateNth]
  exact hx

theorem writeBits_snd (w : ℕ) :
    ∀ (bs : List ℕ) (g : List (List Pixel)) (c : Cursor),
      (writeBits w bs g c).2 = nextN w c bs.length := by
  intro bs
  induction bs with
  | nil => intro g c; rfl
  | cons b bs ih =>
    intro g c
    show (writeBits w bs (writeUnit g c b) (next w c)).2 = nextN w c (bs.length + 1)
    rw [ih]
    rfl

theorem length_writeBits (w : ℕ) :
    ∀ (bs : List ℕ) (g : List (List Pixel)) (c : Cursor),
      (writeBits w bs g c).1.length = g.length := by
  intro bs
  induction bs with
  | nil => intro g c; rfl
  | cons b bs ih =>
    intro g c
    show (writeBits w bs (writeUnit g c b) (next w c)).1.length = g.length
    rw [ih, length_writeUnit]

theorem rowsLen_writeBits (w : ℕ) :
    ∀ (bs : List ℕ) (g : List (List Pixel)) (c : Cursor),
      (∀ row ∈ g, row.length = w) →
      ∀ row ∈ (writeBits w bs g c).1, row.length = w := by
  intro bs
  induction bs with
  | nil => intro g c h; exact h
  | cons b bs ih =>
    intro g c h
    exact ih (writeUnit g c b) (next w c) (rowsLen_writeUnit w g c b h)

theorem getUnit_writeBits_lt (w : ℕ) (hw : 1 ≤ w) :
    ∀ (bs : List ℕ) (g : List (List Pixel)) (c₂ c' : Cursor),
      inB w c₂ → toIdx w c' < toIdx w c₂ →
      getUnit (writeBits w bs g c₂).1 c' = getUnit g c' := by
  intro bs
  induction bs with
  | nil => intro g c₂ c' _ _; rfl
  | cons b bs ih =>
    intro g c₂ c' hin hlt
    show getUnit (writeBits w bs (writeUnit g c₂ b) (next w c₂)).1 c' = getUnit g c'
    rw [ih _ (next w c₂) c' (inB_next w c₂ hw hin)
      (by rw [toIdx_next w c₂ hin]; omega)]
    apply getUnit_writeUnit_ne
    intro hcomp
    obtain ⟨h1, h2, h3⟩ := hcomp
    have heq : toIdx w c' = toIdx w c₂ := by unfold toIdx; rw [h1, h2, h3]
    omega

theorem getUnit_fillRand_lt (w hh : ℕ) (rnd : ℕ → ℕ) (hw : 1 ≤ w) :
    ∀ (fuel : ℕ) (g : List (List Pixel)) (c₂ : Cursor) (t : ℕ) (c' : Cursor),
      inB w c₂ → toIdx w c' < toIdx w c₂ →
      getUnit (fillRand w hh rnd fuel g c₂ t) c' = getUnit g c' := by
  intro fuel
  induction fuel with
  | zero => intro g c₂ t c' _ _; rfl
  | succ fuel ih =>
    intro g c₂ t c' hin hlt
    show getUnit (if c₂.i < hh then
      fillRand w hh rnd fuel (writeUnit g c₂ (rnd t % 2)) (next w c₂) (t + 1)
      else g) c' = getUnit g c'
    by_cases hg : c₂.i < hh
    · rw [if_pos hg, ih _ (next w c₂) _ c' (inB_next w c₂ hw hin)
        (by rw [toIdx_next w c₂ hin]; omega)]
      apply getUnit_writeUnit_ne
      intro hcomp
      obtain ⟨h1, h2, h3⟩ := hcomp
      have heq : toIdx w c' = toIdx w c₂ := by unfold toIdx; rw [h1, h2, h3]
      omega
    · rw [if_neg hg]

theorem length_fillRand (w hh : ℕ) (rnd : ℕ → ℕ) :
    ∀ (fuel : ℕ) (g : List (List Pixel)) (c : Cursor) (t : ℕ),
      (fillRand w hh rnd fuel g c t).length = g.length := by
  intro fuel
  induction fuel with
  | zero => intro g c t; rfl
  | succ fuel ih =>
    intro g c t
    show (if c.i < hh then
      fillRand w hh rnd fuel (writeUnit g c (rnd t % 2)) (next w c) (t + 1)
      else g).length = g.length
    by_cases hg : c.i < hh
    · rw [if_pos hg, ih, length_writeUnit]
    · rw [if_neg hg]

theorem readBits_congr (w : ℕ) (g g' : List (List Pixel)) :
    ∀ (n : ℕ) (c : Cursor),
      (∀ k < n, getUnit g (nextN w c k) = getUnit g' (nextN w c k)) →
      readBits w g n c = readBits w g' n c := by
  intro n
  induction n with
  | zero => intro c _; rfl
  | succ n ih =>
    intro c h
    have h0 : getUnit g c = getUnit g' c := h 0 (by omega)
    show getUnit g c % 2 :: readBits w g n (next w c) =
      getUnit g' c % 2 :: readBits w g' n (next w c)
    rw [h0, ih (next w c) (fun k hk => h (k + 1) (by omega))]

theorem readBits_split (w : ℕ) (g : List (List Pixel)) :
    ∀ (m n : ℕ) (c : Cursor),
      readBits w g (m + n) c = readBits w g m c ++ readBits w g n (nextN w c m) := by
  intro m
  induction m with
  | zero =>
    intro n c
    rw [Nat.zero_add]
    rfl
  | succ m ih =>
    intro n c
    rw [Nat.succ_add]
    show getUnit g c % 2 :: readBits w g (m + n) (next w c) =
      (getUnit g c % 2 :: readBits w g m (next w c)) ++
        readBits w g n (nextN w c (m + 1))
    rw [List.cons_append, ih n (next w c)]
    rfl

theorem readBits_writeBits (w : ℕ) (hw : 1 ≤ w) :
    ∀ (bs : List ℕ) (g : List (List Pixel)) (c : Cursor),
      inB w c → (∀ b ∈ bs, b < 2) → (∀ row ∈ g, row.length = w) →
      toIdx w c + bs.length ≤ 3 * w * g.length →
      readBits w (writeBits w bs g c).1 bs.length c = bs := by
  intro bs
  induction bs with
  | nil => intro g c _ _ _ _; rfl
  | cons b bs ih =>
    intro g c hin hb hrows hbound
    have hch3 : c.ch < 3 := hin.2
    have hx : 3 * (c.i * w + c.j) + c.ch + (bs.length + 1) ≤ 3 * (w * g.length) := by
      unfold toIdx at hbound
      rw [Nat.mul_assoc] at hbound
      simp only [List.length_cons] at hbound
      omega
    have hiw : c.i * w < w * g.length := by omega
    have hiL : c.i < g.length := by
      by_contra hcon
      push_neg at hcon
      have hge : g.length * w ≤ c.i * w := Nat.mul_le_mul_right w hcon
      rw [Nat.mul_comm g.length w] at hge
      omega
    have hjL : c.j < (g.getD c.i []).length := by
      rw [hrows (g.getD c.i []) (getD_mem_of_lt g c.i [] hiL)]
      exact hin.1
    have hhead : getUnit (writeBits w bs (writeUnit g c b) (next w c)).1 c % 2 = b := by
      rw [getUnit_writeBits_lt w hw bs _ (next w c) c (inB_next w c hw hin)
        (by rw [toIdx_next w c hin]; omega)]
      rw [getUnit_writeUnit_self g c b hiL hjL (by omega)]
      have hb2 : b < 2 := hb b (by simp)
      omega
    show getUnit (writeBits w bs (writeUnit g c b) (next w c)).1 c % 2 ::
        readBits w (writeBits w bs (writeUnit g c b) (next w c)).1 bs.length
          (next w c) = b :: bs
    rw [hhead, ih (writeUnit g c b) (next w c) (inB_next w c hw hin)
      (fun x hx2 => hb x (by simp [hx2])) (rowsLen_writeUnit w g c b hrows)
      (by
        rw [toIdx_next w c hin, length_writeUnit]
        simp only [List.length_cons] at hbound
        omega)]

theorem length_readBits (w : ℕ) (g : List (List Pixel)) :
    ∀ (n : ℕ) (c : Cursor), (readBits w g n c).length = n := by
  intro n
  induction n with
  | zero => intro c; rfl
  | succ n ih =>
    intro c
    show (getUnit g c % 2 :: readBits w g n (next w c)).length = n + 1
    simp [ih]

theorem length_bitsOfNat : ∀ (k n : ℕ), (bitsOfNat n k).length = k := by
  intro k
  induction k with
  | zero => intro n; rfl
  | succ k ih =>
    intro n
    show ((n &&& 1) :: bitsOfNat (n >>> 1) k).length = k + 1
    simp [ih]

theorem bitsOfNat_lt_two : ∀ (k n : ℕ), ∀ b ∈ bitsOfNat n k, b < 2 := by
  intro k
  induction k with
  | zero => intro n b hb; simp [bitsOfNat] at hb
  | succ k ih =>
    intro n b hb
    rcases List.mem_cons.1 hb with rfl | hb2
    · rw [Nat.and_one_is_mod]
      omega
    · exact ih (n >>> 1) b hb2

theorem bitsValue_bitsOfNat : ∀ (k n : ℕ), bitsValue (bitsOfNat n k) = n % 2 ^ k := by
  intro k
  induction k with
  | zero => intro n; simp [bitsOfNat, bitsValue, Nat.mod_one]
  | succ k ih =>
    intro n
    show (n &&& 1) + 2 * bitsValue (bitsOfNat (n >>> 1) k) = n % 2 ^ (k + 1)
    rw [ih (n >>> 1), Nat.and_one_is_mod, Nat.shiftRight_one, Nat.pow_succ',
      Nat.mod_mul]

theorem length_payloadBits :
    ∀ cs : List ℕ, (cs.flatMap (fun x => bitsOfNat x 8)).length = 8 * cs.length := by
  intro cs
  induction cs with
  | nil => rfl
  | cons x cs ih =>
    rw [List.flatMap_cons, List.length_append, ih, length_bitsOfNat]
    simp
    ring

theorem payloadBits_lt_two (cs : List ℕ) :
    ∀ b ∈ cs.flatMap (fun x => bitsOfNat x 8), b < 2 := by
  intro b hb
  obtain ⟨x, _, hbx⟩ := List.mem_flatMap.1 hb
  exact bitsOfNat_lt_two 8 x b hbx

theorem readBytes_eq (w : ℕ) (g : List (List Pixel)) :
    ∀ (cs : List ℕ) (c : Cursor),
      readBits w g (8 * cs.length) c = cs.flatMap (fun x => bitsOfNat x 8) →
      (∀ x ∈ cs, x < 256) →
      readBytes w g cs.length c = cs := by
  intro cs
  induction cs with
  | nil => intro c _ _; rfl
  | cons x cs ih =>
    intro c hread hlt
    have hsplit : readBits w g (8 + 8 * cs.length) c =
        readBits w g 8 c ++ readBits w g (8 * cs.length) (nextN w c 8) :=
      readBits_split w g 8 (8 * cs.length) c
    have hread2 : readBits w g 8 c ++ readBits w g (8 * cs.length) (nextN w c 8)
        = bitsOfNat x 8 ++ cs.flatMap (fun y => bitsOfNat y 8) := by
      rw [← hsplit]
      have hlc : 8 + 8 * cs.length = 8 * (x :: cs).length := by
        simp [List.length_cons]
        ring
      rw [hlc, hread, List.flatMap_cons]
    have hlen : (readBits w g 8 c).length = (bitsOfNat x 8).length := by
      rw [length_readBits, length_bitsOfNat]
    obtain ⟨hpre, hpost⟩ := List.append_inj hread2 hlen
    show bitsValue (readBits w g 8 c) :: readBytes w g cs.length (nextN w c 8) =
      x :: cs
    rw [hpre, bitsValue_bitsOfNat]
    have hx256 : x % 2 ^ 8 = x := Nat.mod_eq_of_lt (hlt x (by simp))
    rw [hx256, ih (nextN w c 8) hpost (fun y hy => hlt y (by simp [hy]))]

theorem allowedLen_eq (w hh : ℕ) (hlo : 32 ≤ 3 * w * hh)
    (hhi : 3 * w * hh < 4294967296) :
    allowedLen w hh = (3 * w * hh - 32) / 8 := by
  unfold allowedLen
  have h1 : 3 * w * hh = 3 * (w * hh) := by ring
  rw [h1] at hlo hhi ⊢
  have hwh : w * hh < 4294967296 := by omega
  rw [Nat.mod_eq_of_lt hwh]
  have h2 : w * hh * 3 = 3 * (w * hh) := by ring
  rw [h2]
  have hm2 : 3 * (w * hh) % 4294967296 = 3 * (w * hh) := Nat.mod_eq_of_lt hhi
  rw [hm2]
  have h3 : 3 * (w * hh) + 4294967296 - 32 = (3 * (w * hh) - 32) + 4294967296 := by
    omega
  rw [h3, Nat.add_mod_right]
  have hm3 : (3 * (w * hh) - 32) % 4294967296 = 3 * (w * hh) - 32 :=
    Nat.mod_eq_of_lt (by omega)
  rw [hm3]

theorem toIdx_zero (w : ℕ) : toIdx w ⟨0, 0, 0⟩ = 0 := by
  unfold toIdx
  simp

/-- C4 (amended): on a well-formed image of depth ≥ 16 whose channel-unit
count `3*w*h` is at least 32 and below 2^32 — so the `unsigned` capacity
computation neither underflows (the formula is vacuous below 32 and the C
write runs out of bounds there) nor wraps (above 2^32 the wrapped capacity
rejects payloads the claim's formula admits, see the counterexample) —
writing any C string `s` (nonzero bytes < 256) whose encoded length
`strlen+1` is at most the capacity `(w*h*3 - 32)/8` succeeds, and reading
the resulting image back returns exactly the stored string: the bytes of
`s` followed by its NUL terminator. -/
theorem steg_roundtrip (im : Image) (s : List ℕ) (rnd : ℕ → ℕ)
    (hwf : wfImage im)
    (hdepth : 16 ≤ im.bmp_header.bit_per_pixel)
    (hw : 1 ≤ im.bmp_header.width)
    (hlo : 32 ≤ 3 * im.bmp_header.width * im.bmp_header.height)
    (hhi : 3 * im.bmp_header.width * im.bmp_header.height < 4294967296)
    (hcap : s.length + 1 ≤ allowedLen im.bmp_header.width im.bmp_header.height)
    (hs : ∀ x ∈ s, 0 < x ∧ x < 256) :
    stegWrite im s rnd =
      Except.ok { im with pixel_data := stegWriteGrid im s rnd } ∧
    stegRead { im with pixel_data := stegWriteGrid im s rnd } =
      some (s ++ [0]) := by
  obtain ⟨hh1, hw1, _⟩ := hwf
  have hcapeq : allowedLen im.bmp_header.width im.bmp_header.height =
      (3 * im.bmp_header.width * im.bmp_header.height - 32) / 8 :=
    allowedLen_eq _ _ hlo hhi
  have hlen8 : 8 * (s.length + 1) ≤
      3 * im.bmp_header.width * im.bmp_header.height - 32 := by
    rw [hcapeq] at hcap
    have h := (Nat.le_div_iff_mul_le (show 0 < 8 by omega)).1 hcap
    omega
  have hlenlt : s.length + 1 < 4294967296 := by
    rw [hcapeq] at hcap
    omega
  have hwrite : stegWrite im s rnd =
      Except.ok { im with pixel_data := stegWriteGrid im s rnd } := by
    rw [stegWrite, if_neg (by omega), if_neg (by omega)]
  refine ⟨hwrite, ?_⟩
  have hbslen : (bitsOfNat (s.length + 1) 32 ++
      (s ++ [0]).flatMap (fun x => bitsOfNat x 8)).length =
      32 + 8 * (s.length + 1) := by
    rw [List.length_append, length_bitsOfNat, length_payloadBits]
    simp
  have hbits : ∀ b ∈ bitsOfNat (s.length + 1) 32 ++
      (s ++ [0]).flatMap (fun x => bitsOfNat x 8), b < 2 := by
    intro b hb
    rcases List.mem_append.1 hb with hb | hb
    · exact bitsOfNat_lt_two 32 _ b hb
    · exact payloadBits_lt_two _ b hb
  have hinB0 : inB im.bmp_header.width ⟨0, 0, 0⟩ := ⟨hw, by decide⟩
  have hE : readBits im.bmp_header.width
      (writeBits im.bmp_header.width
        (bitsOfNat (s.length + 1) 32 ++ (s ++ [0]).flatMap (fun x => bitsOfNat x 8))
        im.pixel_data ⟨0, 0, 0⟩).1
      (bitsOfNat (s.length + 1) 32 ++
        (s ++ [0]).flatMap (fun x => bitsOfNat x 8)).length ⟨0, 0, 0⟩ =
      bitsOfNat (s.length + 1) 32 ++
        (s ++ [0]).flatMap (fun x => bitsOfNat x 8) := by
    apply readBits_writeBits im.bmp_header.width hw _ im.pixel_data ⟨0, 0, 0⟩
      hinB0 hbits hw1
    rw [toIdx_zero, hbslen, hh1]
    omega
  have hsnd : (writeBits im.bmp_header.width
      (bitsOfNat (s.length + 1) 32 ++ (s ++ [0]).flatMap (fun x => bitsOfNat x 8))
      im.pixel_data ⟨0, 0, 0⟩).2 =
      nextN im.bmp_header.width ⟨0, 0, 0⟩
        (bitsOfNat (s.length + 1) 32 ++
          (s ++ [0]).flatMap (fun x => bitsOfNat x 8)).length :=
    writeBits_snd _ _ _ _
  have hinBN : inB im.bmp_header.width
      (nextN im.bmp_header.width ⟨0, 0, 0⟩
        (bitsOfNat (s.length + 1) 32 ++
          (s ++ [0]).flatMap (fun x => bitsOfNat x 8)).length) :=
    inB_nextN _ hw _ _ hinB0
  have htoN : toIdx im.bmp_header.width
      (nextN im.bmp_header.width ⟨0, 0, 0⟩
        (bitsOfNat (s.length + 1) 32 ++
          (s ++ [0]).flatMap (fun x => bitsOfNat x 8)).length) =
      32 + 8 * (s.length + 1) := by
    rw [toIdx_nextN _ hw _ _ hinB0, toIdx_zero, hbslen]
    omega
  have hfill : ∀ k < (bitsOfNat (s.length + 1) 32 ++
      (s ++ [0]).flatMap (fun x => bitsOfNat x 8)).length,
      getUnit (stegWriteGrid im s rnd)
        (nextN im.bmp_header.width ⟨0, 0, 0⟩ k) =
      getUnit (writeBits im.bmp_header.width
        (bitsOfNat (s.length + 1) 32 ++ (s ++ [0]).flatMap (fun x => bitsOfNat x 8))
        im.pixel_data ⟨0, 0, 0⟩).1
        (nextN im.bmp_header.width ⟨0, 0, 0⟩ k) := by
    intro k hk
    unfold stegWriteGrid
    apply getUnit_fillRand_lt _ _ _ hw
    · rw [hsnd]
      exact hinBN
    · rw [hsnd, toIdx_nextN _ hw _ _ hinB0, toIdx_zero,
        toIdx_nextN _ hw _ _ hinB0, toIdx_zero]
      omega
  have hreadG : readBits im.bmp_header.width (stegWriteGrid im s rnd)
      (bitsOfNat (s.length + 1) 32 ++
        (s ++ [0]).flatMap (fun x => bitsOfNat x 8)).length ⟨0, 0, 0⟩ =
      bitsOfNat (s.length + 1) 32 ++
        (s ++ [0]).flatMap (fun x => bitsOfNat x 8) := by
    rw [readBits_congr im.bmp_header.width _ _ _ ⟨0, 0, 0⟩ hfill]
    exact hE
  rw [hbslen] at hreadG
  rw [readBits_split im.bmp_header.width (stegWriteGrid im s rnd) 32
    (8 * (s.length + 1)) ⟨0, 0, 0⟩] at hreadG
  have hlen32 : (readBits im.bmp_header.width (stegWriteGrid im s rnd) 32
      ⟨0, 0, 0⟩).length = (bitsOfNat (s.length + 1) 32).length := by
    rw [length_readBits, length_bitsOfNat]
  obtain ⟨hpre, hpost⟩ := List.append_inj hreadG hlen32
  have hvalue : bitsValue (readBits im.bmp_header.width (stegWriteGrid im s rnd)
      32 ⟨0, 0, 0⟩) = s.length + 1 := by
    rw [hpre, bitsValue_bitsOfNat]
    have h232 : (2 : ℕ) ^ 32 = 4294967296 := by norm_num
    rw [h232]
    exact Nat.mod_eq_of_lt hlenlt
  show (if im.bmp_header.bit_per_pixel < 16 then none
    else if bitsValue (readBits im.bmp_header.width (stegWriteGrid im s rnd)
        32 ⟨0, 0, 0⟩) > allowedLen im.bmp_header.width im.bmp_header.height
      then none
    else some (readBytes im.bmp_header.width (stegWriteGrid im s rnd)
      (bitsValue (readBits im.bmp_header.width (stegWriteGrid im s rnd)
        32 ⟨0, 0, 0⟩))
      (nextN im.bmp_header.width ⟨0, 0, 0⟩ 32))) = some (s ++ [0])
  rw [if_neg (by omega), hvalue, if_neg (by omega)]
  have hsl : (s ++ [0]).length = s.length + 1 := by simp
  have hbytes : readBytes im.bmp_header.width (stegWriteGrid im s rnd)
      (s ++ [0]).length (nextN im.bmp_header.width ⟨0, 0, 0⟩ 32) = s ++ [0] := by
    apply readBytes_eq
    · rw [hsl]
      exact hpost
    · intro x hx
      rcases List.mem_append.1 hx with hx | hx
      · exact (hs x hx).2
      · simp at hx
        omega
  rw [hsl] at hbytes
  rw [hbytes]

/-- 16×1 24-bit image of zero pixels; its steganographic capacity is
`(16*1*3 - 32)/8 = 2` bytes. -/
def im16 : Image :=
  { bmp_header := mkHeader 16 1 24
    pixel_data := [List.replicate 16 pixel0]
    palette := [] }

/-- Witness for C4: the one-character string "A" (length 1, encoded
length 2 = capacity) round-trips through the 16×1 image. -/
theorem steg_roundtrip_witness :
    (wfImage im16 ∧ 16 ≤ im16.bmp_header.bit_per_pixel ∧
      1 ≤ im16.bmp_header.width ∧
      32 ≤ 3 * im16.bmp_header.width * im16.bmp_header.height ∧
      3 * im16.bmp_header.width * im16.bmp_header.height < 4294967296 ∧
      ([65] : List ℕ).length + 1 ≤
        allowedLen im16.bmp_header.width im16.bmp_header.height ∧
      ∀ x ∈ ([65] : List ℕ), 0 < x ∧ x < 256) ∧
    (stegWrite im16 [65] (fun _ => 0) =
      Except.ok { im16 with pixel_data := stegWriteGrid im16 [65] (fun _ => 0) } ∧
    stegRead { im16 with pixel_data := stegWriteGrid im16 [65] (fun _ => 0) } =
      some ([65] ++ [0])) :=
  ⟨⟨by decide, by decide, by decide, by decide, by decide, by decide, by decide⟩,
    steg_roundtrip im16 [65] (fun _ => 0) (by decide) (by decide) (by decide)
      (by decide) (by decide) (by decide) (by decide)⟩

/-- 48000×30000 16-bit image, a valid (≈2.9 GB on disk) BMP: its
channel-unit count `3*w*h = 4320000000` exceeds 2^32, so the `unsigned`
capacity computation of `steganography_write` (bitmap.c line 972) wraps
to `(4320000000 mod 2^32 - 32)/8 = 3129084` bytes, while the claim's
capacity formula gives `(3*w*h - 32)/8 = 539999996` bytes. -/
def imBig : Image :=
  { bmp_header := mkHeader 48000 30000 16
    pixel_data := List.replicate 30000 (List.replicate 48000 pixel0)
    palette := [] }

/-- C4 counterexample: on the well-formed depth-16 image `imBig` a
3999999-byte string (encoded length 4000000) is within the claim's
capacity 539999996 but above the code's wrapped capacity 3129084, so
`steganography_write` rejects it with PayloadTooLarge (defined unsigned
wrap, no UB): the image is left unwritten and no read returns the
string, refuting the claim as stated for images with `3*w*h ≥ 2^32`. -/
theorem steg_roundtrip_capacity_wrap :
    wfImage imBig ∧ 16 ≤ imBig.bmp_header.bit_per_pixel ∧
    (List.replicate 3999999 (65 : ℕ)).length + 1 ≤
      (imBig.bmp_header.width * imBig.bmp_header.height * 3 - 32) / 8 ∧
    allowedLen imBig.bmp_header.width imBig.bmp_header.height = 3129084 ∧
    stegWrite imBig (List.replicate 3999999 65) (fun _ => 0) =
      Except.error StegErr.payloadTooLarge := by
  refine ⟨⟨?_, ?_, ?_⟩, by decide, ?_, by decide, ?_⟩
  · show (List.replicate 30000 (List.replicate 48000 pixel0)).length = 30000
    exact List.length_replicate ..
  · intro row hrow
    rw [List.eq_of_mem_replicate hrow]
    show (List.replicate 48000 pixel0).length = 48000
    exact List.length_replicate ..
  · intro row hrow p hp
    rw [List.eq_of_mem_replicate hrow] at hp
    rw [List.eq_of_mem_replicate hp]
    decide
  · rw [List.length_replicate]
    decide
  · rw [stegWrite, if_pos (by rw [List.length_replicate]; decide)]

/-- C5: `steganography_write` succeeds when the encoded payload length
`strlen+1` equals the capacity exactly (given depth ≥ 16), fails with
PayloadTooLarge when it is one byte more (this check precedes the depth
check, in source order), and fails with UnsupportedDepth on depth < 16
when the payload fits. -/
theorem steg_capacity_boundary (im : Image) (rnd : ℕ → ℕ) :
    (∀ s : List ℕ,
      s.length + 1 = allowedLen im.bmp_header.width im.bmp_header.height →
      16 ≤ im.bmp_header.bit_per_pixel →
      stegWrite im s rnd =
        Except.ok { im with pixel_data := stegWriteGrid im s rnd }) ∧
    (∀ s : List ℕ,
      s.length + 1 = allowedLen im.bmp_header.width im.bmp_header.height + 1 →
      stegWrite im s rnd = Except.error StegErr.payloadTooLarge) ∧
    (∀ s : List ℕ, im.bmp_header.bit_per_pixel < 16 →
      s.length + 1 ≤ allowedLen im.bmp_header.width im.bmp_header.height →
      stegWrite im s rnd = Except.error StegErr.unsupportedDepth) := by
  refine ⟨?_, ?_, ?_⟩
  · intro s hcap hdep
    rw [stegWrite, if_neg (by omega), if_neg (by omega)]
  · intro s hcap
    rw [stegWrite, if_pos (by omega)]
  · intro s hdep hcap
    rw [stegWrite, if_neg (by omega), if_pos (by omega)]

/-- 16×1 8-bit variant of `im16` (depth below the steganographic
minimum). -/
def im8 : Image :=
  { bmp_header := mkHeader 16 1 8
    pixel_data := [List.replicate 16 pixel0]
    palette := [] }

/-- Witness for C5 on the 16×1 images: capacity 2; "A" (encoded length
2) succeeds at depth 24, "AB" (encoded length 3) fails with
PayloadTooLarge, and "A" fails with UnsupportedDepth at depth 8. -/
theorem steg_capacity_boundary_witness :
    (([65] : List ℕ).length + 1 =
        allowedLen im16.bmp_header.width im16.bmp_header.height ∧
      16 ≤ im16.bmp_header.bit_per_pixel ∧
      stegWrite im16 [65] (fun _ => 0) =
        Except.ok { im16 with pixel_data := stegWriteGrid im16 [65] (fun _ => 0) }) ∧
    (([65, 66] : List ℕ).length + 1 =
        allowedLen im16.bmp_header.width im16.bmp_header.height + 1 ∧
      stegWrite im16 [65, 66] (fun _ => 0) =
        Except.error StegErr.payloadTooLarge) ∧
    (im8.bmp_header.bit_per_pixel < 16 ∧
      ([65] : List ℕ).length + 1 ≤
        allowedLen im8.bmp_header.width im8.bmp_header.height ∧
      stegWrite im8 [65] (fun _ => 0) =
        Except.error StegErr.unsupportedDepth) :=
  ⟨⟨by decide, by decide,
      (steg_capacity_boundary im16 (fun _ => 0)).1 [65] (by decide) (by decide)⟩,
    ⟨by decide,
      (steg_capacity_boundary im16 (fun _ => 0)).2.1 [65, 66] (by decide)⟩,
    ⟨by decide, by decide,
      (steg_capacity_boundary im8 (fun _ => 0)).2.2 [65] (by decide) (by decide)⟩⟩

end Bmp
